import Mathlib

/-!
Verification of the Plaza refinement algorithms of
`dolfin/refinement/PlazaRefinementND.cpp` and of the value-collection
redistribution of `dolfin/mesh/MeshPartitioning.h`, via a shallow
embedding in Lean.

Machine integers (`std::size_t`, `unsigned int`) are modelled as `Nat`
(no arithmetic here approaches overflow), `std::vector` as `List`,
`std::set<std::size_t>`/`std::map` iteration as lists in the
corresponding order, and `bool` as `Bool`.
-/

namespace Plaza

/-- Read of `std::vector<bool>` at index `i`; all call sites index
in-range, out-of-range reads are modelled as `false`. -/
def getB (v : List Bool) (i : Nat) : Bool := v.getD i false

/-- Read of `std::vector<std::size_t>` at index `i`; out-of-range reads
are modelled as `0`. -/
def getN (v : List Nat) (i : Nat) : Nat := v.getD i 0

/-!  ## `PlazaRefinementND::get_triangles`  (PlazaRefinementND.cpp:60-98)

`v0`,`v1` are the ends of the longest edge `e2`; the opposite vertex has
the same index as the longest edge.  Each half of the triangle becomes
one or two sub-triangles, appended to `tri_set` in source order. -/
def get_triangles (marked_edges : List Bool) (longest_edge : Nat) :
    List (List Nat) :=
  let v0 := (longest_edge + 1) % 3
  let v1 := (longest_edge + 2) % 3
  let v2 := longest_edge
  let e0 := v0 + 3
  let e1 := v1 + 3
  let e2 := v2 + 3
  (if getB marked_edges v0 then [[e2, v2, e0], [e2, e0, v1]]
   else [[e2, v2, v1]])
  ++
  (if getB marked_edges v1 then [[e2, v2, e1], [e2, e1, v0]]
   else [[e2, v2, v0]])

/-!  ## `PlazaRefinementND::get_tetrahedra`  (PlazaRefinementND.cpp:100-210)

The 10×10 boolean connectivity matrix `conn` is modelled as a function
`Nat → Nat → Bool`, initially everywhere `false`, updated entry by entry
exactly as the source assigns `conn[a][b] = true`. -/

/-- The static table `edges[6][2]` of edge endpoint vertices. -/
def edgesTab : List (Nat × Nat) := [(2, 3), (1, 3), (1, 2), (0, 3), (0, 2), (0, 1)]

/-- `edges[ei]` as the pair of endpoints. -/
def edgeEnds (ei : Nat) : Nat × Nat := edgesTab.getD ei (0, 0)

/-- `conn[a][b] = true` on the functional matrix. -/
def connSet (c : Nat → Nat → Bool) (a b : Nat) : Nat → Nat → Bool :=
  fun i j => if i = a ∧ j = b then true else c i j

/-- One iteration `ei` of the loop over the 6 cell edges that fills the
connectivity matrix (PlazaRefinementND.cpp:124-180). -/
def connEdgeStep (marked_edges : List Bool) (longest_edge : List Nat)
    (c : Nat → Nat → Bool) (ei : Nat) : Nat → Nat → Bool :=
  let v0 := (edgeEnds ei).1
  let v1 := (edgeEnds ei).2
  if getB marked_edges ei then
    -- connect midpoint slot ei+4 to both edge end vertices
    let c := connSet (connSet c v1 (ei + 4)) v0 (ei + 4)
    -- the two facets attached to edge ei are numbered by the endpoints
    -- of the opposite edge 5-ei; loop j = 0, 1
    [0, 1].foldl (fun c j =>
      let e_opp := 5 - ei
      let fj := if j = 0 then (edgeEnds e_opp).1 else (edgeEnds e_opp).2
      let le_j := getN longest_edge fj
      if le_j = ei then
        let fk := if j = 0 then (edgeEnds e_opp).2 else (edgeEnds e_opp).1
        let le_k := getN longest_edge fk
        let c := connSet c fk (ei + 4)
        if le_k = ei ∧ getB marked_edges e_opp then
          connSet (connSet c (ei + 4) (e_opp + 4)) (e_opp + 4) (ei + 4)
        else c
      else
        connSet (connSet c (le_j + 4) (ei + 4)) (ei + 4) (le_j + 4)) c
  else
    connSet (connSet c v1 v0) v0 v1

/-- The connectivity matrix after all 6 edge iterations. -/
def buildConn (marked_edges : List Bool) (longest_edge : List Nat) :
    Nat → Nat → Bool :=
  (List.range 6).foldl (connEdgeStep marked_edges longest_edge) (fun _ _ => false)

/-- `facet_set`: the slots `k` in `j+1 .. 9` connected to both `i` and `j`
(PlazaRefinementND.cpp:189-194). -/
def facetSet (c : Nat → Nat → Bool) (i j : Nat) : List Nat :=
  (List.range' (j + 1) (9 - j)).filter (fun k => c i k && c j k)

/-- The two inner iterator loops `p`, `q` over `facet_set`
(PlazaRefinementND.cpp:197-207): for each `p`, each later `q` with
`conn[p][q]` emits the tetrahedron `{i, j, p, q}`. -/
def innerPairs (c : Nat → Nat → Bool) (i j : Nat) : List Nat → List (List Nat)
  | [] => []
  | p :: rest =>
      ((rest.filter (fun q => c p q)).map (fun q => [i, j, p, q]))
        ++ innerPairs c i j rest

/-- Body of the `j` loop of the clique enumeration: the emissions for a
fixed pair `i < j` (guarded by `conn[i][j]`). -/
def jBlock (c : Nat → Nat → Bool) (i j : Nat) : List (List Nat) :=
  if c i j then innerPairs c i j (facetSet c i j) else []

/-- The 4-clique enumeration over the connectivity matrix
(PlazaRefinementND.cpp:183-209). -/
def cliqueTets (c : Nat → Nat → Bool) : List (List Nat) :=
  (List.range 10).flatMap (fun i =>
    (List.range' (i + 1) (9 - i)).flatMap (fun j => jBlock c i j))

/-- `PlazaRefinementND::get_tetrahedra`: build the connectivity matrix,
then enumerate 4-cliques. -/
def get_tetrahedra (marked_edges : List Bool) (longest_edge : List Nat) :
    List (List Nat) :=
  cliqueTets (buildConn marked_edges longest_edge)

/-!  ## `PlazaRefinementND::get_simplices`  (PlazaRefinementND.cpp:42-58)

Dispatch on the topological dimension; for `tdim` other than 2 and 3
neither branch is taken and `simplex_set` is left untouched. -/
def get_simplices (simplex_set : List (List Nat)) (marked_edges : List Bool)
    (longest_edge : List Nat) (tdim : Nat) : List (List Nat) :=
  if tdim = 2 then get_triangles marked_edges (getN longest_edge 0)
  else if tdim = 3 then get_tetrahedra marked_edges longest_edge
  else simplex_set

/-- The guard at the top of every `PlazaRefinementND::refine` overload
(PlazaRefinementND.cpp:283-289): `dolfin_error` for `tdim` other than
2 and 3, modelled as `Except.error`. -/
def refine_tdim_check (tdim : Nat) : Except String Unit :=
  if tdim ≠ 2 ∧ tdim ≠ 3 then
    Except.error "Topological dimension not supported"
  else Except.ok ()

/-!  ## `PlazaRefinementND::enforce_rules`  (PlazaRefinementND.cpp:246-277)

The mesh is modelled by the list of its faces (in `FaceIterator` order),
each carrying its index and the mesh indices of its edges; the
`ParallelRefinement` marker state is the `Finset` of marked edge
indices.  The serial semantics is embedded:
`update_logical_edgefunction` (the cross-process marker sync) is the
identity on one process and `MPI::sum` of the local counter is the
counter itself. -/

/-- A face as `enforce_rules` sees it: its mesh index (the key into
`long_edge`) and the mesh indices of its edges. -/
structure FaceM where
  index : Nat
  edges : List Nat

/-- One iteration of the face loop (PlazaRefinementND.cpp:261-274) on
the state (marked-edge set, update_count): skip if the face's longest
edge is already marked, otherwise mark it and count when any edge of
the face is marked. -/
def faceStep (long_edge : Nat → Nat) (st : Finset Nat × Nat) (f : FaceM) :
    Finset Nat × Nat :=
  let long_e := long_edge f.index
  if long_e ∈ st.1 then st
  else if f.edges.any (fun e => decide (e ∈ st.1)) then
    (insert long_e st.1, st.2 + 1)
  else st

/-- One round of the `while` loop: scan every face starting from
`update_count = 0`. -/
def enforce_round (long_edge : Nat → Nat) (faces : List FaceM)
    (marked : Finset Nat) : Finset Nat × Nat :=
  faces.foldl (faceStep long_edge) (marked, 0)

/-- The set of longest edges the rounds can ever mark. -/
def longEdgesOf (long_edge : Nat → Nat) (faces : List FaceM) : Finset Nat :=
  (faces.map (fun f => long_edge f.index)).toFinset

/-- The `while (update_count != 0)` loop of `enforce_rules`
(PlazaRefinementND.cpp:255-276), instrumented with the number of rounds
executed.  `update_count` starts at 1, so at least one round runs; the
loop repeats while a round marks something.  Termination is by the
strictly growing marked set inside its finite upper bound. -/
def enforce_loop (long_edge : Nat → Nat) (faces : List FaceM)
    (marked : Finset Nat) : Finset Nat × Nat :=
  let r := enforce_round long_edge faces marked
  if h : r.2 = 0 then (r.1, 1)
  else
    let rest := enforce_loop long_edge faces r.1
    (rest.1, rest.2 + 1)
termination_by ((longEdgesOf long_edge faces ∪ marked).card - marked.card)
decreasing_by
  have key : ∀ (fs : List FaceM) (m : Finset Nat) (k : Nat),
      m ⊆ (fs.foldl (faceStep long_edge) (m, k)).1
      ∧ (fs.foldl (faceStep long_edge) (m, k)).1 ⊆ m ∪ longEdgesOf long_edge fs
      ∧ k ≤ (fs.foldl (faceStep long_edge) (m, k)).2
      ∧ ((fs.foldl (faceStep long_edge) (m, k)).1 = m →
          (fs.foldl (faceStep long_edge) (m, k)).2 = k) := by
    intro fs
    induction fs with
    | nil => intro m k; simp [longEdgesOf]
    | cons f rest ih =>
        intro m k
        have hle : longEdgesOf long_edge rest
            ⊆ longEdgesOf long_edge (f :: rest) := by
          intro x hx
          simp only [longEdgesOf, List.map_cons, List.toFinset_cons,
            Finset.mem_insert]
          exact Or.inr (by simpa [longEdgesOf] using hx)
        have hfle : long_edge f.index ∈ longEdgesOf long_edge (f :: rest) := by
          simp [longEdgesOf]
        simp only [List.foldl_cons, faceStep]
        split_ifs with h1 h2
        · obtain ⟨i1, i2, i3, i4⟩ := ih m k
          exact ⟨i1, i2.trans (Finset.union_subset_union_right hle), i3, i4⟩
        · obtain ⟨i1, i2, i3, _⟩ := ih (insert (long_edge f.index) m) (k + 1)
          refine ⟨(Finset.subset_insert _ m).trans i1, ?_, by omega, ?_⟩
          · refine i2.trans ?_
            refine Finset.union_subset ?_
              ((Finset.subset_union_right).trans
                (Finset.union_subset_union_right hle))
            intro x hx
            rcases Finset.mem_insert.1 hx with rfl | hx
            · exact Finset.mem_union_right _ hfle
            · exact Finset.mem_union_left _ hx
          · intro heq
            exfalso
            have : long_edge f.index ∈
                (rest.foldl (faceStep long_edge)
                  (insert (long_edge f.index) m, k + 1)).1 :=
              i1 (Finset.mem_insert_self _ _)
            rw [heq] at this
            exact h1 this
        · obtain ⟨i1, i2, i3, i4⟩ := ih m k
          exact ⟨i1, i2.trans (Finset.union_subset_union_right hle), i3, i4⟩
  obtain ⟨k1, k2, _, k5⟩ := key faces marked 0
  have hne : (faces.foldl (faceStep long_edge) (marked, 0)).1 ≠ marked :=
    fun heq => h (by simpa [enforce_round] using k5 heq)
  have hss : marked ⊂ (faces.foldl (faceStep long_edge) (marked, 0)).1 :=
    ⟨k1, fun hsub => hne (Finset.Subset.antisymm hsub k1)⟩
  have hcard := Finset.card_lt_card hss
  have hsub2 : longEdgesOf long_edge faces
      ∪ (faces.foldl (faceStep long_edge) (marked, 0)).1
      = longEdgesOf long_edge faces ∪ marked := by
    apply Finset.Subset.antisymm
    · refine Finset.union_subset (Finset.subset_union_left) ?_
      intro x hx
      rcases Finset.mem_union.1 (k2 hx) with hx' | hx'
      · exact Finset.mem_union_right _ hx'
      · exact Finset.mem_union_left _ hx'
    · exact Finset.union_subset Finset.subset_union_left
        (k1.trans Finset.subset_union_right)
  have hceq := congrArg Finset.card hsub2
  have hcl : (faces.foldl (faceStep long_edge) (marked, 0)).1.card
      ≤ (longEdgesOf long_edge faces
          ∪ (faces.foldl (faceStep long_edge) (marked, 0)).1).card :=
    Finset.card_le_card Finset.subset_union_right
  have hm : marked.card
      ≤ (longEdgesOf long_edge faces ∪ marked).card :=
    Finset.card_le_card Finset.subset_union_right
  simp only [enforce_round] at *
  omega

/-- `PlazaRefinementND::enforce_rules`: the final marked-edge set. -/
def enforce_rules (long_edge : Nat → Nat) (faces : List FaceM)
    (marked : Finset Nat) : Finset Nat :=
  (enforce_loop long_edge faces marked).1

/-!  ## `PlazaRefinementND::face_long_edge`  (PlazaRefinementND.cpp:212-244)

The per-face scan is embedded.  A face is the list of its edges in
`EdgeIterator` order; each edge carries its mesh index (`e->index()`),
its length `e->length()` (modelled as an exact rational — the source's
`>` and `==` on `double` are exact comparisons of the computed values),
and the global index of the face vertex opposite the edge
(`Vertex(mesh, f->entities(0)[e.pos()]).global_index()`). -/
structure EdgeInfo where
  index : Nat
  len : ℚ
  oppGlobal : Nat
deriving DecidableEq

/-- One update of the scanning state `(imax, gimax, max_len)`
(PlazaRefinementND.cpp:228-239). -/
def longEdgeScanStep (st : Nat × Nat × ℚ) (e : EdgeInfo) : Nat × Nat × ℚ :=
  if e.len > st.2.2 ∨ (e.len = st.2.2 ∧ e.oppGlobal > st.2.1) then
    (e.index, e.oppGlobal, e.len)
  else st

/-- The per-face body of `face_long_edge`: scan the face's edges from
`imax = 0`, `gimax = 0`, `max_len = 0.0` and return `imax`. -/
def face_long_edge_scan (edges : List EdgeInfo) : Nat :=
  (edges.foldl longEdgeScanStep (0, 0, 0)).1

/-- The (length, opposite-vertex global index) key order implicit in
the scan's update condition. -/
def keyLe (a b : ℚ × Nat) : Prop :=
  a.1 < b.1 ∨ (a.1 = b.1 ∧ a.2 ≤ b.2)

/-!  ## `PlazaRefinementND::set_parent_facet_markers`
(PlazaRefinementND.cpp:464-561)

The parent mesh is the list of its cells, each with its facets in
`FacetIterator` order; each parent facet carries its own mesh index
(`f->index()`, the `new_vertex_map` key when `tdim = 2`), the cell's
facet entity index `pcell->entities(tdim-1)[i]`, its vertices' global
indices and its edges' mesh indices (the `new_vertex_map` keys when
`tdim = 3`).  The new mesh is the list of its cells, each with its
`parent_cell` entry and its facets (mesh index and vertex global
indices).  `new_parent_facet` is the `List Nat` state, indexed by facet
mesh index. -/

/-- `std::numeric_limits<std::size_t>::max()`, the "no parent"
sentinel. -/
def noParent : Nat := 2 ^ 64 - 1

/-- A facet of a parent cell. -/
structure PFacetM where
  fidx : Nat
  entity : Nat
  verts : List Nat
  edges : List Nat
deriving DecidableEq

/-- A parent cell: its index and its facets. -/
structure PCellM where
  index : Nat
  facets : List PFacetM
deriving DecidableEq

/-- A facet of the new mesh: its mesh index and vertex global
indices. -/
structure CFacetM where
  index : Nat
  verts : List Nat
deriving DecidableEq

/-- A cell of the new mesh: its index, its `parent_cell` entry, and its
facets. -/
structure CCellM where
  index : Nat
  parent : Nat
  facets : List CFacetM
deriving DecidableEq

/-- The augmented vertex set of a parent facet
(PlazaRefinementND.cpp:498-526): the facet's vertex global indices,
plus the new vertex of the facet itself when divided (`tdim = 2`,
keyed by `f->index()`), or of each divided facet edge (`tdim = 3`). -/
def facetVSet (tdim : Nat) (nvm : Nat → Option Nat) (f : PFacetM) :
    Finset Nat :=
  let base := f.verts.toFinset
  if tdim = 2 then
    match nvm f.fidx with
    | some nv => insert nv base
    | none => base
  else if tdim = 3 then
    f.edges.foldl (fun s e =>
      match nvm e with
      | some nv => insert nv s
      | none => s) base
  else base

/-- The loop over the parent facet sets for one untagged child facet
(PlazaRefinementND.cpp:541-556): every matching set overwrites the tag
(there is no `break`), so the last match in iteration order is kept. -/
def matchLoop (fsets : List (Finset Nat × Nat)) (cverts : List Nat)
    (cur : Nat) : Nat :=
  fsets.foldl
    (fun acc fs => if cverts.all (fun v => decide (v ∈ fs.1)) then fs.2
      else acc) cur

/-- The selection C3 claims, in the spec's words: the FIRST matching
parent facet set in iteration order tags the facet (for comparison
with `matchLoop`, which the code implements). -/
def matchFirst (fsets : List (Finset Nat × Nat)) (cverts : List Nat)
    (cur : Nat) : Nat :=
  match fsets.find? (fun fs => cverts.all (fun v => decide (v ∈ fs.1))) with
  | some fs => fs.2
  | none => cur

/-- Processing of one child facet (PlazaRefinementND.cpp:534-557):
only facets still carrying the sentinel are examined. -/
def tagChildFacet (fsets : List (Finset Nat × Nat)) (tags : List Nat)
    (f : CFacetM) : List Nat :=
  if tags.getD f.index noParent = noParent then
    tags.set f.index (matchLoop fsets f.verts (tags.getD f.index noParent))
  else tags

/-- Processing of one parent cell (PlazaRefinementND.cpp:495-560):
build the augmented facet vertex sets, then scan the facets of every
child cell of this parent (the `reverse_cell_map` entry, i.e. the new
cells whose `parent_cell` is this cell, in index order). -/
def processParent (tdim : Nat) (nvm : Nat → Option Nat)
    (newcells : List CCellM) (tags : List Nat) (p : PCellM) : List Nat :=
  let fsets := p.facets.map (fun f => (facetVSet tdim nvm f, f.entity))
  (newcells.filter (fun c => c.parent == p.index)).foldl
    (fun tags c => c.facets.foldl (tagChildFacet fsets) tags) tags

/-- `PlazaRefinementND::set_parent_facet_markers`: initialise every
entry of `new_parent_facet` to the sentinel, then process every parent
cell. -/
def set_parent_facet_markers (tdim : Nat) (nvm : Nat → Option Nat)
    (pcells : List PCellM) (newcells : List CCellM) (num_facets : Nat) :
    List Nat :=
  pcells.foldl (processParent tdim nvm newcells)
    (List.replicate num_facets noParent)

/-- Provenance of a `parent_facet` entry `v` at facet index `i`: some
parent cell has a child cell in the new mesh one of whose facets has
mesh index `i` and all its vertices inside the augmented vertex set of
a facet of that parent cell, and `v` is that parent facet's entity
index. -/
def tagProv (tdim : Nat) (nvm : Nat → Option Nat) (pcells : List PCellM)
    (newcells : List CCellM) (i v : Nat) : Prop :=
  ∃ p ∈ pcells, ∃ c ∈ newcells, c.parent = p.index
    ∧ ∃ cf ∈ c.facets, cf.index = i
    ∧ ∃ f ∈ p.facets, v = f.entity
    ∧ ∀ w ∈ cf.verts, w ∈ facetVSet tdim nvm f

/-!  ## `MeshPartitioning::build_mesh_value_collection`
(MeshPartitioning.h:186-326)

`ldata` is the list of `((global cell index, local entity index),
value)` tuples; `global_entity_indices` the target mesh's local
global entity indices; `entity_hosts` the result of the external
`locate_off_process_entities` query, iterated as a list of
`(global cell index, destination (process, local index) pairs)` in
`std::map`/`std::set` order.  `markers.set_value` calls are modelled as
the emitted list of `(local index, local entity index, value)`
applications, and the per-destination send buffers as functions from
process rank to buffer contents. -/

/-- `map_of_global_entity_indices` (MeshPartitioning.h:232-234): insert
`global[i] ↦ i` for `i` ascending (later occurrences overwrite). -/
def mapOfGlobalIndices (global_entity_indices : List Nat) :
    Nat → Option Nat :=
  global_entity_indices.enum.foldl
    (fun m p => fun g => if g = p.2 then some p.1 else m g)
    (fun _ => none)

/-- The first loop over `ldata` (MeshPartitioning.h:236-250): apply a
tuple directly when its global cell index is found locally, otherwise
queue it in `off_process_global_cell_entities`. -/
def localApplyLoop {T : Type} (lookup : Nat → Option Nat)
    (ldata : List ((Nat × Nat) × T)) :
    List (Nat × Nat × T) × List Nat :=
  ldata.foldl (fun st d =>
    match lookup d.1.1 with
    | some li => (st.1 ++ [(li, d.1.2, d.2)], st.2)
    | none => (st.1, st.2 ++ [d.1.1])) ([], [])

/-- `map_of_ldata` (MeshPartitioning.h:270-272): for a global cell
index, the positions into `ldata` carrying it, a `std::set` iterated in
increasing order. -/
def ldataPositions {T : Type} (ldata : List ((Nat × Nat) × T)) (g : Nat) :
    List Nat :=
  (List.range ldata.length).filter (fun i =>
    match ldata.get? i with
    | some d => d.1.1 == g
    | none => false)

/-- The packing loop (MeshPartitioning.h:274-304): for each located
entity, each `ldata` position with that global index, each destination
`(process, local index)` pair, push the index pair onto `send_data0` of
the destination and the value onto `send_data1` of the destination. -/
def packSend {T : Type} (ldata : List ((Nat × Nat) × T))
    (entity_hosts : List (Nat × List (Nat × Nat))) :
    (Nat → List Nat) × (Nat → List T) :=
  entity_hosts.foldl (fun st eh =>
    (ldataPositions ldata eh.1).foldl (fun st i =>
      match ldata.get? i with
      | some d =>
          eh.2.foldl (fun st pd =>
            (fun r => if r = pd.1 then st.1 r ++ [pd.2, d.1.2] else st.1 r,
             fun r => if r = pd.1 then st.2 r ++ [d.2] else st.2 r)) st
      | none => st) st)
    (fun _ => [], fun _ => [])

/-- The logical content of one destination's buffers: the
`(local cell index, local entity index, value)` triples in push
order. -/
def sendTriples {T : Type} (ldata : List ((Nat × Nat) × T))
    (entity_hosts : List (Nat × List (Nat × Nat))) (q : Nat) :
    List (Nat × Nat × T) :=
  entity_hosts.flatMap (fun eh =>
    (ldataPositions ldata eh.1).flatMap (fun i =>
      match ldata.get? i with
      | some d => (eh.2.filter (fun pd => pd.1 == q)).map
          (fun pd => (pd.2, d.1.2, d.2))
      | none => []))

/-- The receive loop for one source process
(MeshPartitioning.h:317-324): the `i`-th value is applied with the
index pair at positions `2i` and `2i+1` of the index buffer. -/
def applyRecvOne {T : Type} (recv0 : List Nat) (recv1 : List T) :
    List (Nat × Nat × T) :=
  (recv1.foldl (fun st v =>
    (st.1 ++ [(recv0.getD (2 * st.2) 0, recv0.getD (2 * st.2 + 1) 0, v)],
     st.2 + 1)) ([], 0)).1

/-- The valid per-facet longest-edge assignments of C1: entry `f` (for
facet `f`, numbered like its opposite vertex) is one of the three edges
of facet `f`, i.e. an edge index below 6 not having `f` as an endpoint. -/
def validLongestEdge (longest_edge : List Nat) : Prop :=
  longest_edge.length = 4 ∧
    ∀ f < 4, getN longest_edge f < 6 ∧
      f ≠ (edgeEnds (getN longest_edge f)).1 ∧
      f ≠ (edgeEnds (getN longest_edge f)).2

end Plaza

/-- C10: for every `tdim` other than 2 and 3, `get_simplices` is a
silent no-op — it returns without error (it is a total function in the
model) and leaves `simplex_set` unchanged — whereas `refine` rejects
such dimensions with a fatal error before doing anything else. -/
theorem get_simplices_other_tdim_noop (tdim : Nat)
    (h2 : tdim ≠ 2) (h3 : tdim ≠ 3) :
    (∀ (s : List (List Nat)) (m : List Bool) (le : List Nat),
        Plaza.get_simplices s m le tdim = s)
    ∧ Plaza.refine_tdim_check tdim =
        Except.error "Topological dimension not supported" := by
  refine ⟨fun s m le => ?_, ?_⟩ <;> simp [Plaza.get_simplices,
    Plaza.refine_tdim_check, h2, h3]

/-- Witness for C10 at `tdim = 4`. -/
theorem get_simplices_other_tdim_noop_witness :
    (∀ (s : List (List Nat)) (m : List Bool) (le : List Nat),
        Plaza.get_simplices s m le 4 = s)
    ∧ Plaza.refine_tdim_check 4 =
        Except.error "Topological dimension not supported" :=
  get_simplices_other_tdim_noop 4 (by decide) (by decide)

/-- C4: `get_triangles` requires the longest edge to be marked
(`dolfin_assert(marked_edges[longest_edge])`); under that precondition it
outputs `2` triangles plus one for each marked non-longest edge: 2 when
only the longest edge is marked, 3 when one other edge is also marked,
4 when all three edges are marked. -/
theorem get_triangles_count (m0 m1 m2 : Bool) (le : Nat) (hle : le < 3)
    (hpre : Plaza.getB [m0, m1, m2] le = true) :
    (Plaza.get_triangles [m0, m1, m2] le).length =
      2 + ((if Plaza.getB [m0, m1, m2] ((le + 1) % 3) then 1 else 0)
         + (if Plaza.getB [m0, m1, m2] ((le + 2) % 3) then 1 else 0)) := by
  interval_cases le <;> cases m0 <;> cases m1 <;> cases m2 <;>
    simp_all [Plaza.get_triangles, Plaza.getB]

/-- Witness for C4: with the longest edge (index 2) and one other edge
marked, `get_triangles` returns 3 triangles. -/
theorem get_triangles_count_witness :
    (Plaza.get_triangles [true, false, true] 2).length =
      2 + ((if Plaza.getB [true, false, true] ((2 + 1) % 3) then 1 else 0)
         + (if Plaza.getB [true, false, true] ((2 + 2) % 3) then 1 else 0)) :=
  get_triangles_count true false true 2 (by decide) (by decide)

/-!  ### C1: no duplicate tetrahedra from the clique enumeration -/

namespace Plaza

/-- Every tuple emitted by the inner `p`,`q` loops over a strictly
increasing `facet_set` has the form `[i, j, p, q]` with `p < q`, both
drawn from `facet_set`. -/
theorem innerPairs_shape (c : Nat → Nat → Bool) (i j : Nat) :
    ∀ L : List Nat, L.Pairwise (· < ·) →
      ∀ t ∈ innerPairs c i j L,
        ∃ p q, t = [i, j, p, q] ∧ p ∈ L ∧ q ∈ L ∧ p < q := by
  intro L
  induction L with
  | nil => intro _ t ht; simp [innerPairs] at ht
  | cons p rest ih =>
      intro hP t ht
      rw [List.pairwise_cons] at hP
      simp only [innerPairs, List.mem_append, List.mem_map,
        List.mem_filter] at ht
      rcases ht with ⟨q, ⟨hq, _⟩, rfl⟩ | ht
      · exact ⟨p, q, rfl, List.mem_cons_self p rest,
          List.mem_cons_of_mem _ hq, hP.1 q hq⟩
      · obtain ⟨p', q', rfl, hp', hq', hlt⟩ := ih hP.2 t ht
        exact ⟨p', q', rfl, List.mem_cons_of_mem _ hp',
          List.mem_cons_of_mem _ hq', hlt⟩

/-- Over a strictly increasing `facet_set`, the inner `p`,`q` loops
never emit the same tuple twice. -/
theorem innerPairs_nodup (c : Nat → Nat → Bool) (i j : Nat) :
    ∀ L : List Nat, L.Pairwise (· < ·) → (innerPairs c i j L).Nodup := by
  intro L
  induction L with
  | nil => intro _; simp [innerPairs]
  | cons p rest ih =>
      intro hP
      rw [List.pairwise_cons] at hP
      have hrestP : rest.Pairwise (· < ·) := hP.2
      have hrest : rest.Nodup := hrestP.imp (fun h => Nat.ne_of_lt h)
      have hmap :
          ((rest.filter (fun q => c p q)).map (fun q => [i, j, p, q])).Nodup := by
        refine List.Nodup.map ?_ (hrest.filter _)
        intro a b hab
        simpa using hab
      have hrec : (innerPairs c i j rest).Nodup := ih hrestP
      refine List.Nodup.append hmap hrec ?_
      intro t ht1 ht2
      simp only [List.mem_map, List.mem_filter] at ht1
      obtain ⟨q, _, rfl⟩ := ht1
      obtain ⟨p', q', heq, hp', _, _⟩ := innerPairs_shape c i j rest hrestP _ ht2
      have hpp : p = p' := by
        have := heq
        simp at this
        exact this.1
      exact absurd hpp (Nat.ne_of_lt (hP.1 p' hp'))

/-- `facet_set` is strictly increasing (it filters `range'`). -/
theorem facetSet_pairwise (c : Nat → Nat → Bool) (i j : Nat) :
    (facetSet c i j).Pairwise (· < ·) :=
  (List.pairwise_lt_range' _ _ 1 (by decide)).filter _

/-- Members of `facet_set` lie strictly between `j` and 10. -/
theorem facetSet_mem_bounds (c : Nat → Nat → Bool) (i j k : Nat)
    (hj : j < 10) (hk : k ∈ facetSet c i j) : j < k ∧ k < 10 := by
  have := List.mem_filter.1 hk
  have hr := List.mem_range'_1.1 this.1
  omega

/-- Shape of the emissions of one `j` iteration: `[i, j, p, q]` with
`j < p < q < 10`. -/
theorem jBlock_shape (c : Nat → Nat → Bool) (i j : Nat) (hj : j < 10) :
    ∀ t ∈ jBlock c i j, ∃ p q, t = [i, j, p, q] ∧ j < p ∧ p < q ∧ q < 10 := by
  intro t ht
  rw [jBlock] at ht
  by_cases hc : c i j
  · rw [if_pos hc] at ht
    obtain ⟨p, q, rfl, hp, hq, hpq⟩ :=
      innerPairs_shape c i j _ (facetSet_pairwise c i j) t ht
    obtain ⟨hjp, _⟩ := facetSet_mem_bounds c i j p hj hp
    obtain ⟨_, hq10⟩ := facetSet_mem_bounds c i j q hj hq
    exact ⟨p, q, rfl, hjp, hpq, hq10⟩
  · rw [if_neg hc] at ht
    simp at ht

/-- Weak shape of one `j` iteration's emissions (no bounds needed):
always `[i, j, p, q]` for some `p`, `q`. -/
theorem jBlock_shape_weak (c : Nat → Nat → Bool) (i j : Nat) :
    ∀ t ∈ jBlock c i j, ∃ p q, t = [i, j, p, q] := by
  intro t ht
  rw [jBlock] at ht
  by_cases hc : c i j
  · rw [if_pos hc] at ht
    obtain ⟨p, q, rfl, _, _, _⟩ :=
      innerPairs_shape c i j _ (facetSet_pairwise c i j) t ht
    exact ⟨p, q, rfl⟩
  · rw [if_neg hc] at ht
    simp at ht

/-- One `j` iteration emits no duplicates. -/
theorem jBlock_nodup (c : Nat → Nat → Bool) (i j : Nat) :
    (jBlock c i j).Nodup := by
  rw [jBlock]
  by_cases hc : c i j
  · rw [if_pos hc]
    exact innerPairs_nodup c i j _ (facetSet_pairwise c i j)
  · rw [if_neg hc]
    simp

/-- Every tuple emitted by the clique enumeration is strictly
increasing with all slots below 10. -/
theorem cliqueTets_shape (c : Nat → Nat → Bool) :
    ∀ t ∈ cliqueTets c,
      ∃ i j k l, t = [i, j, k, l] ∧ i < j ∧ j < k ∧ k < l ∧ l < 10 := by
  intro t ht
  simp only [cliqueTets, List.mem_flatMap, List.mem_range] at ht
  obtain ⟨i, hi, j, hj, ht⟩ := ht
  have hj' := List.mem_range'_1.1 hj
  have hj10 : j < 10 := by omega
  obtain ⟨p, q, rfl, hjp, hpq, hq10⟩ := jBlock_shape c i j hj10 t ht
  exact ⟨i, j, p, q, rfl, by omega, hjp, hpq, hq10⟩

/-- The clique enumeration never emits the same tuple twice: the
`i < j < p < q` loop structure visits each slot quadruple at most once. -/
theorem cliqueTets_nodup (c : Nat → Nat → Bool) :
    (cliqueTets c).Nodup := by
  rw [cliqueTets]
  refine List.nodup_flatMap.2 ⟨fun i hi => ?_, ?_⟩
  · refine List.nodup_flatMap.2 ⟨fun j hj => jBlock_nodup c i j, ?_⟩
    refine (List.pairwise_lt_range' _ _ 1 (by decide)).imp ?_
    intro j1 j2 hlt t ht1 ht2
    obtain ⟨p1, q1, he1⟩ := jBlock_shape_weak c i j1 t ht1
    obtain ⟨p2, q2, he2⟩ := jBlock_shape_weak c i j2 t ht2
    rw [he1] at he2
    simp at he2
    omega
  · refine (List.pairwise_lt_range' 0 10 1 (by decide)).imp ?_
    intro i1 i2 hlt t ht1 ht2
    simp only [List.mem_flatMap] at ht1 ht2
    obtain ⟨j1, hj1, ht1⟩ := ht1
    obtain ⟨j2, hj2, ht2⟩ := ht2
    obtain ⟨p1, q1, he1⟩ := jBlock_shape_weak c i1 j1 t ht1
    obtain ⟨p2, q2, he2⟩ := jBlock_shape_weak c i2 j2 t ht2
    rw [he1] at he2
    simp at he2
    omega

end Plaza

/-- C1: for every edge-marking pattern over the tetrahedron's 6 edges and
every valid per-facet longest-edge assignment, `get_tetrahedra` emits no
duplicate tetrahedron: every emitted 4-tuple of slot indices is strictly
increasing (`i < j < k < l`, all below 10), and no two emitted tuples
have the same set of slots. -/
theorem get_tetrahedra_no_duplicates (marked_edges : List Bool)
    (longest_edge : List Nat) (_hm : marked_edges.length = 6)
    (_hv : Plaza.validLongestEdge longest_edge) :
    (∀ t ∈ Plaza.get_tetrahedra marked_edges longest_edge,
        ∃ i j k l, t = [i, j, k, l] ∧ i < j ∧ j < k ∧ k < l ∧ l < 10)
    ∧ (Plaza.get_tetrahedra marked_edges longest_edge).Pairwise
        (fun s t => s.toFinset ≠ t.toFinset) := by
  have hdef : Plaza.get_tetrahedra marked_edges longest_edge
      = Plaza.cliqueTets (Plaza.buildConn marked_edges longest_edge) := rfl
  rw [hdef]
  set c := Plaza.buildConn marked_edges longest_edge with hc
  have hshape := Plaza.cliqueTets_shape c
  have hnd := Plaza.cliqueTets_nodup c
  refine ⟨hshape, ?_⟩
  have hsorted : ∀ t ∈ Plaza.cliqueTets c, t.Sorted (· < ·) := by
    intro t ht
    obtain ⟨i, j, k, l, rfl, h1, h2, h3, _⟩ := hshape t ht
    rw [List.sorted_cons, List.sorted_cons, List.sorted_cons]
    refine ⟨fun b hb => ?_, fun b hb => ?_, fun b hb => ?_,
      List.sorted_singleton l⟩
    · simp at hb; rcases hb with rfl | rfl | rfl <;> omega
    · simp at hb; rcases hb with rfl | rfl <;> omega
    · simp at hb; subst hb; omega
  refine List.Pairwise.imp_of_mem ?_ hnd
  intro s t hs ht hne heq
  exact hne (List.eq_of_perm_of_sorted
    (List.perm_of_nodup_nodup_toFinset_eq (hsorted s hs).nodup
      (hsorted t ht).nodup heq)
    (hsorted s hs) (hsorted t ht))

/-- Witness for C1: the fully marked tetrahedron with the valid
longest-edge assignment `[0, 0, 1, 2]`. -/
theorem get_tetrahedra_no_duplicates_witness :
    (∀ t ∈ Plaza.get_tetrahedra [true, true, true, true, true, true]
        [0, 0, 1, 2],
        ∃ i j k l, t = [i, j, k, l] ∧ i < j ∧ j < k ∧ k < l ∧ l < 10)
    ∧ (Plaza.get_tetrahedra [true, true, true, true, true, true]
        [0, 0, 1, 2]).Pairwise (fun s t => s.toFinset ≠ t.toFinset) :=
  get_tetrahedra_no_duplicates [true, true, true, true, true, true]
    [0, 0, 1, 2] (by decide) (by exact ⟨by decide, by decide⟩)

/-!  ### C2, C5, C6: the `enforce_rules` fixed point -/

namespace Plaza

/-- Invariants of one face-scan round, folded from state `(m, k)`:
the marked set only grows; new marks are longest edges of the scanned
faces; the counter never decreases; the counter is unchanged exactly
when the marked set is unchanged. -/
theorem enforce_round_invariant (long_edge : Nat → Nat) :
    ∀ (fs : List FaceM) (m : Finset Nat) (k : Nat),
      m ⊆ (fs.foldl (faceStep long_edge) (m, k)).1
      ∧ (fs.foldl (faceStep long_edge) (m, k)).1 ⊆ m ∪ longEdgesOf long_edge fs
      ∧ k ≤ (fs.foldl (faceStep long_edge) (m, k)).2
      ∧ ((fs.foldl (faceStep long_edge) (m, k)).1 = m →
          (fs.foldl (faceStep long_edge) (m, k)).2 = k)
      ∧ ((fs.foldl (faceStep long_edge) (m, k)).2 = k →
          (fs.foldl (faceStep long_edge) (m, k)).1 = m) := by
  intro fs
  induction fs with
  | nil => intro m k; simp [longEdgesOf]
  | cons f rest ih =>
      intro m k
      have hle : longEdgesOf long_edge rest
          ⊆ longEdgesOf long_edge (f :: rest) := by
        intro x hx
        simp only [longEdgesOf, List.map_cons, List.toFinset_cons,
          Finset.mem_insert]
        exact Or.inr (by simpa [longEdgesOf] using hx)
      have hfle : long_edge f.index ∈ longEdgesOf long_edge (f :: rest) := by
        simp [longEdgesOf]
      simp only [List.foldl_cons, faceStep]
      split_ifs with h1 h2
      · obtain ⟨i1, i2, i3, i4, i5⟩ := ih m k
        exact ⟨i1, i2.trans (Finset.union_subset_union_right hle), i3, i4, i5⟩
      · obtain ⟨i1, i2, i3, i4, i5⟩ := ih (insert (long_edge f.index) m) (k + 1)
        refine ⟨(Finset.subset_insert _ m).trans i1, ?_, by omega, ?_, ?_⟩
        · refine i2.trans ?_
          refine Finset.union_subset ?_
            ((Finset.subset_union_right).trans
              (Finset.union_subset_union_right hle))
          intro x hx
          rcases Finset.mem_insert.1 hx with rfl | hx
          · exact Finset.mem_union_right _ hfle
          · exact Finset.mem_union_left _ hx
        · intro heq
          exfalso
          have : long_edge f.index ∈
              (rest.foldl (faceStep long_edge)
                (insert (long_edge f.index) m, k + 1)).1 :=
            i1 (Finset.mem_insert_self _ _)
          rw [heq] at this
          exact h1 this
        · intro hk
          omega
      · obtain ⟨i1, i2, i3, i4, i5⟩ := ih m k
        exact ⟨i1, i2.trans (Finset.union_subset_union_right hle), i3, i4, i5⟩

/-- A round whose counter stays at its initial value left every face
compliant with respect to the (unchanged) marked set: either the face's
longest edge is marked, or no edge of the face is. -/
theorem enforce_round_zero_post (long_edge : Nat → Nat) :
    ∀ (fs : List FaceM) (m : Finset Nat) (k : Nat),
      (fs.foldl (faceStep long_edge) (m, k)).2 = k →
      ∀ f ∈ fs, long_edge f.index ∈ m ∨ ∀ e ∈ f.edges, e ∉ m := by
  intro fs
  induction fs with
  | nil => intro m k _ f hf; exact absurd hf (List.not_mem_nil f)
  | cons f rest ih =>
      intro m k hcount g hg
      simp only [List.foldl_cons, faceStep] at hcount
      split_ifs at hcount with h1 h2
      · rcases List.mem_cons.1 hg with rfl | hg
        · exact Or.inl h1
        · exact ih m k hcount g hg
      · exfalso
        have := (enforce_round_invariant long_edge rest
          (insert (long_edge f.index) m) (k + 1)).2.2.1
        omega
      · rcases List.mem_cons.1 hg with rfl | hg
        · refine Or.inr (fun e he hem => h2 ?_)
          simp only [List.any_eq_true, decide_eq_true_eq]
          exact ⟨e, he, hem⟩
        · exact ih m k hcount g hg

/-- The fixed-point facts about `enforce_loop`: the input marking is
contained in the result; the result is a fixed point of the face scan
(one further round changes nothing and counts zero); and the number of
rounds is at most the number of candidate longest edges not initially
marked, plus one. -/
theorem enforce_loop_fix (long_edge : Nat → Nat) (faces : List FaceM) :
    ∀ marked : Finset Nat,
      marked ⊆ (enforce_loop long_edge faces marked).1
      ∧ (enforce_round long_edge faces
          (enforce_loop long_edge faces marked).1).2 = 0
      ∧ (enforce_round long_edge faces
          (enforce_loop long_edge faces marked).1).1
        = (enforce_loop long_edge faces marked).1
      ∧ (enforce_loop long_edge faces marked).2
        ≤ (longEdgesOf long_edge faces \ marked).card + 1 := by
  intro marked
  induction marked using enforce_loop.induct long_edge faces with
  | case1 m r hr =>
      obtain ⟨i1, i2, i3, i4, i5⟩ := enforce_round_invariant long_edge faces m 0
      have hm : r.1 = m := i5 hr
      have hloop : enforce_loop long_edge faces m = (r.1, 1) := by
        rw [enforce_loop.eq_def]
        dsimp only
        split
        next => rfl
        next h => exact absurd hr h
      rw [hloop, hm]
      refine ⟨fun x hx => hx, ?_, ?_, by omega⟩
      · exact hr
      · exact hm
  | case2 m r hr ih =>
      obtain ⟨i1, i2, i3, i4, i5⟩ := enforce_round_invariant long_edge faces m 0
      have hloop : enforce_loop long_edge faces m
          = ((enforce_loop long_edge faces r.1).1,
             (enforce_loop long_edge faces r.1).2 + 1) := by
        rw [enforce_loop.eq_def]
        dsimp only
        split
        next h => exact absurd h hr
        next => rfl
      obtain ⟨j1, j2, j3, j4⟩ := ih
      have hmr : m ⊆ r.1 := i1
      have hne : r.1 ≠ m := fun he => hr (i4 he)
      have hss : m ⊂ r.1 :=
        ⟨hmr, fun hsub => hne (Finset.Subset.antisymm hsub hmr)⟩
      have hcard : (longEdgesOf long_edge faces \ r.1).card
          < (longEdgesOf long_edge faces \ m).card := by
        apply Finset.card_lt_card
        constructor
        · exact Finset.sdiff_subset_sdiff (fun x hx => hx) hmr
        · intro hsub
          obtain ⟨x, hxr, hxm⟩ := Finset.exists_of_ssubset hss
          have hxle : x ∈ longEdgesOf long_edge faces := by
            rcases Finset.mem_union.1 (i2 hxr) with h | h
            · exact absurd h hxm
            · exact h
          have : x ∈ longEdgesOf long_edge faces \ r.1 :=
            hsub (Finset.mem_sdiff.2 ⟨hxle, hxm⟩)
          exact (Finset.mem_sdiff.1 this).2 hxr
      rw [hloop]
      exact ⟨hmr.trans j1, j2, j3, by omega⟩

end Plaza

/-- C2: for every mesh (list of faces with their edges), every
`long_edge` table and every initial marking, after `enforce_rules`
returns, every face with any marked edge has its longest edge marked. -/
theorem enforce_rules_postcondition (long_edge : Nat → Nat)
    (faces : List Plaza.FaceM) (marked : Finset Nat) :
    ∀ f ∈ faces,
      (∃ e ∈ f.edges, e ∈ Plaza.enforce_rules long_edge faces marked) →
        long_edge f.index ∈ Plaza.enforce_rules long_edge faces marked := by
  intro f hf hex
  obtain ⟨e, he, hem⟩ := hex
  obtain ⟨_, h2, _, _⟩ := Plaza.enforce_loop_fix long_edge faces marked
  have hpost := Plaza.enforce_round_zero_post long_edge faces
    (Plaza.enforce_rules long_edge faces marked) 0
    (by simpa [Plaza.enforce_round, Plaza.enforce_rules] using h2)
  rcases hpost f hf with h | h
  · exact h
  · exact absurd hem (h e he)

/-- Witness for C2: one face (index 0, edges 0 and 5) whose longest
edge is edge 5; marking edge 0 forces edge 5 into the result. -/
theorem enforce_rules_postcondition_witness :
    (fun _ => 5) (Plaza.FaceM.mk 0 [0, 5]).index
      ∈ Plaza.enforce_rules (fun _ => 5) [Plaza.FaceM.mk 0 [0, 5]] {0} :=
  enforce_rules_postcondition (fun _ => 5) [Plaza.FaceM.mk 0 [0, 5]] {0}
    (Plaza.FaceM.mk 0 [0, 5]) (List.mem_singleton.2 rfl)
    ⟨0, by decide,
      (Plaza.enforce_loop_fix (fun _ => 5) [Plaza.FaceM.mk 0 [0, 5]] {0}).1
        (Finset.mem_singleton.2 rfl)⟩

/-- C5: `enforce_rules` terminates for every finite mesh and marking —
`enforce_loop` is a total function — and moreover: marks are only added
(the input marking is contained in the result), every non-final round
marks at least one previously unmarked edge (a round with a nonzero
counter strictly grows the marked set), and when every face's longest
edge is a valid edge index (below the edge count) the number of rounds
is at most the number of edges plus one. -/
theorem enforce_rules_termination_bound (long_edge : Nat → Nat)
    (faces : List Plaza.FaceM) (marked : Finset Nat) (numEdges : Nat)
    (hval : ∀ f ∈ faces, long_edge f.index < numEdges) :
    marked ⊆ Plaza.enforce_rules long_edge faces marked
    ∧ (∀ m : Finset Nat, (Plaza.enforce_round long_edge faces m).2 ≠ 0 →
        m ⊂ (Plaza.enforce_round long_edge faces m).1)
    ∧ (Plaza.enforce_loop long_edge faces marked).2 ≤ numEdges + 1 := by
  obtain ⟨l1, _, _, l4⟩ := Plaza.enforce_loop_fix long_edge faces marked
  refine ⟨l1, ?_, ?_⟩
  · intro m hm
    obtain ⟨i1, i2, i3, i4, i5⟩ :=
      Plaza.enforce_round_invariant long_edge faces m 0
    refine ⟨i1, fun hsub => ?_⟩
    have heq : (faces.foldl (Plaza.faceStep long_edge) (m, 0)).1 = m :=
      Finset.Subset.antisymm hsub i1
    exact hm (by simpa [Plaza.enforce_round] using i4 heq)
  · have hsub : Plaza.longEdgesOf long_edge faces ⊆ Finset.range numEdges := by
      intro x hx
      simp only [Plaza.longEdgesOf, List.mem_toFinset, List.mem_map] at hx
      obtain ⟨f, hf, rfl⟩ := hx
      exact Finset.mem_range.2 (hval f hf)
    have h1 : (Plaza.longEdgesOf long_edge faces).card ≤ numEdges := by
      simpa using Finset.card_le_card hsub
    have h2 : (Plaza.longEdgesOf long_edge faces \ marked).card
        ≤ (Plaza.longEdgesOf long_edge faces).card :=
      Finset.card_le_card (Finset.sdiff_subset)
    omega

/-- Witness for C5: one face with edges 0, 1, 2 and longest edge 0, in a
mesh with 3 edges, starting from the empty marking. -/
theorem enforce_rules_termination_bound_witness :
    ∅ ⊆ Plaza.enforce_rules (fun _ => 0) [Plaza.FaceM.mk 0 [0, 1, 2]] ∅
    ∧ (∀ m : Finset Nat,
        (Plaza.enforce_round (fun _ => 0) [Plaza.FaceM.mk 0 [0, 1, 2]] m).2 ≠ 0 →
        m ⊂ (Plaza.enforce_round (fun _ => 0) [Plaza.FaceM.mk 0 [0, 1, 2]] m).1)
    ∧ (Plaza.enforce_loop (fun _ => 0) [Plaza.FaceM.mk 0 [0, 1, 2]] ∅).2
        ≤ 3 + 1 :=
  enforce_rules_termination_bound (fun _ => 0) [Plaza.FaceM.mk 0 [0, 1, 2]] ∅ 3
    (by
      intro f hf
      rcases List.mem_singleton.1 hf with rfl
      decide)

/-- C6: `enforce_rules` is idempotent — one further face-scan round on
its output counts zero updates, and re-running `enforce_rules` on its
own output returns the marking unchanged. -/
theorem enforce_rules_idempotent (long_edge : Nat → Nat)
    (faces : List Plaza.FaceM) (marked : Finset Nat) :
    (Plaza.enforce_round long_edge faces
        (Plaza.enforce_rules long_edge faces marked)).2 = 0
    ∧ Plaza.enforce_rules long_edge faces
        (Plaza.enforce_rules long_edge faces marked)
      = Plaza.enforce_rules long_edge faces marked := by
  obtain ⟨_, h2, h3, _⟩ := Plaza.enforce_loop_fix long_edge faces marked
  refine ⟨by simpa [Plaza.enforce_rules] using h2, ?_⟩
  simp only [Plaza.enforce_rules] at h2 h3 ⊢
  rw [Plaza.enforce_loop.eq_def]
  dsimp only
  split
  next h => exact h3
  next h => exact absurd h2 h

/-!  ### C7: determinism of the longest-edge selection -/

namespace Plaza

/-- `keyLe` is reflexive. -/
theorem keyLe_refl (a : ℚ × Nat) : keyLe a a := Or.inr ⟨rfl, le_refl _⟩

/-- `keyLe` is transitive. -/
theorem keyLe_trans {a b c : ℚ × Nat} (h1 : keyLe a b) (h2 : keyLe b c) :
    keyLe a c := by
  rcases h1 with h1 | ⟨h1e, h1g⟩
  · rcases h2 with h2 | ⟨h2e, _⟩
    · exact Or.inl (h1.trans h2)
    · exact Or.inl (h2e ▸ h1)
  · rcases h2 with h2 | ⟨h2e, h2g⟩
    · exact Or.inl (h1e ▸ h2)
    · exact Or.inr ⟨h1e.trans h2e, h1g.trans h2g⟩

/-- Invariants of the longest-edge fold: the final state is either the
initial state or carries the data of some scanned edge, never goes down
in the key order, and ends at or above the key of every scanned edge. -/
theorem longEdgeScan_invariant :
    ∀ (L : List EdgeInfo) (st : Nat × Nat × ℚ),
      (L.foldl longEdgeScanStep st = st
        ∨ ∃ e ∈ L, L.foldl longEdgeScanStep st
            = (e.index, e.oppGlobal, e.len))
      ∧ keyLe (st.2.2, st.2.1)
          ((L.foldl longEdgeScanStep st).2.2, (L.foldl longEdgeScanStep st).2.1)
      ∧ ∀ e ∈ L, keyLe (e.len, e.oppGlobal)
          ((L.foldl longEdgeScanStep st).2.2, (L.foldl longEdgeScanStep st).2.1) := by
  intro L
  induction L with
  | nil =>
      intro st
      exact ⟨Or.inl rfl, keyLe_refl _, fun e he => absurd he (List.not_mem_nil e)⟩
  | cons e rest ih =>
      intro st
      simp only [List.foldl_cons, longEdgeScanStep]
      split_ifs with hc
      · obtain ⟨i1, i2, i3⟩ := ih (e.index, e.oppGlobal, e.len)
        have hst : keyLe (st.2.2, st.2.1) (e.len, e.oppGlobal) := by
          rcases hc with hc | ⟨hce, hcg⟩
          · exact Or.inl hc
          · exact Or.inr ⟨hce.symm, le_of_lt hcg⟩
        refine ⟨?_, keyLe_trans hst i2, ?_⟩
        · rcases i1 with i1 | ⟨e', he', hfe⟩
          · exact Or.inr ⟨e, List.mem_cons_self e rest, i1⟩
          · exact Or.inr ⟨e', List.mem_cons_of_mem _ he', hfe⟩
        · intro e' he'
          rcases List.mem_cons.1 he' with rfl | he'
          · exact i2
          · exact i3 e' he'
      · obtain ⟨i1, i2, i3⟩ := ih st
        have hek : keyLe (e.len, e.oppGlobal) (st.2.2, st.2.1) := by
          push_neg at hc
          rcases lt_or_eq_of_le hc.1 with h | h
          · exact Or.inl h
          · exact Or.inr ⟨h, hc.2 h⟩
        refine ⟨?_, i2, ?_⟩
        · rcases i1 with i1 | ⟨e', he', hfe⟩
          · exact Or.inl i1
          · exact Or.inr ⟨e', List.mem_cons_of_mem _ he', hfe⟩
        · intro e' he'
          rcases List.mem_cons.1 he' with rfl | he'
          · exact keyLe_trans hek i2
          · exact i3 e' he'

/-- On a nonempty face with positive edge lengths, the scan returns the
data of a key-maximal edge. -/
theorem face_long_edge_scan_max (edges : List EdgeInfo)
    (hne : edges ≠ []) (hpos : ∀ e ∈ edges, 0 < e.len) :
    ∃ e ∈ edges, face_long_edge_scan edges = e.index
      ∧ ∀ e' ∈ edges, keyLe (e'.len, e'.oppGlobal) (e.len, e.oppGlobal) := by
  obtain ⟨i1, _, i3⟩ := longEdgeScan_invariant edges (0, 0, 0)
  obtain ⟨e0, he0⟩ := List.exists_mem_of_ne_nil edges hne
  rcases i1 with i1 | ⟨e, he, hfe⟩
  · exfalso
    have := i3 e0 he0
    rw [i1] at this
    rcases this with h | ⟨h, _⟩
    · exact absurd h (not_lt.2 (le_of_lt (hpos e0 he0)))
    · exact absurd h (ne_of_gt (hpos e0 he0))
  · refine ⟨e, he, ?_, ?_⟩
    · rw [face_long_edge_scan, hfe]
    · intro e' he'
      have := i3 e' he'
      rw [hfe] at this
      exact this

end Plaza

/-- C7: the edge selected by the `face_long_edge` scan is a function
only of the face's edge lengths and opposite-vertex global indices: it
is an edge of maximal length, ties broken in favour of the larger
opposite-vertex global index, and any permutation of the edge
enumeration order (e.g. a different process's local ordering) selects
the same edge. -/
theorem face_long_edge_deterministic (edges : List Plaza.EdgeInfo)
    (hne : edges ≠ [])
    (hpos : ∀ e ∈ edges, 0 < e.len)
    (hinj : (edges.map Plaza.EdgeInfo.oppGlobal).Nodup) :
    (∃ e ∈ edges, Plaza.face_long_edge_scan edges = e.index
      ∧ ∀ e' ∈ edges, e'.len < e.len
          ∨ (e'.len = e.len ∧ e'.oppGlobal ≤ e.oppGlobal))
    ∧ ∀ edges' : List Plaza.EdgeInfo, edges.Perm edges' →
        Plaza.face_long_edge_scan edges' = Plaza.face_long_edge_scan edges := by
  obtain ⟨e, he, hei, hemax⟩ := Plaza.face_long_edge_scan_max edges hne hpos
  refine ⟨⟨e, he, hei, fun e' he' => hemax e' he'⟩, ?_⟩
  intro edges' hperm
  have hne' : edges' ≠ [] := by
    intro h
    rw [h] at hperm
    exact hne (List.Perm.eq_nil hperm)
  have hpos' : ∀ e' ∈ edges', 0 < e'.len :=
    fun e' he' => hpos e' (hperm.symm.subset he')
  obtain ⟨f, hf, hfi, hfmax⟩ := Plaza.face_long_edge_scan_max edges' hne' hpos'
  have hfe : f ∈ edges := hperm.symm.subset hf
  have hef : e ∈ edges' := hperm.subset he
  have h1 : Plaza.keyLe (e.len, e.oppGlobal) (f.len, f.oppGlobal) :=
    hfmax e hef
  have h2 : Plaza.keyLe (f.len, f.oppGlobal) (e.len, e.oppGlobal) :=
    hemax f hfe
  have hkey : f.len = e.len ∧ f.oppGlobal = e.oppGlobal := by
    rcases h1 with h1 | ⟨h1e, h1g⟩ <;> rcases h2 with h2 | ⟨h2e, h2g⟩
    · exact absurd (h1.trans h2) (lt_irrefl _)
    · exact absurd h1 (h2e ▸ lt_irrefl _)
    · exact absurd h2 (h1e ▸ lt_irrefl _)
    · exact ⟨h2e, le_antisymm h2g h1g⟩
  have hfeq : f = e :=
    List.inj_on_of_nodup_map hinj hfe he hkey.2
  rw [hfi, hei, hfeq]

/-- Witness for C7: a face whose three edges have lengths 1, 1, 2 and
opposite-vertex global indices 2, 1, 0. -/
theorem face_long_edge_deterministic_witness :
    (∃ e ∈ [Plaza.EdgeInfo.mk 0 1 2, Plaza.EdgeInfo.mk 1 1 1,
        Plaza.EdgeInfo.mk 2 2 0],
      Plaza.face_long_edge_scan [Plaza.EdgeInfo.mk 0 1 2,
          Plaza.EdgeInfo.mk 1 1 1, Plaza.EdgeInfo.mk 2 2 0] = e.index
      ∧ ∀ e' ∈ [Plaza.EdgeInfo.mk 0 1 2, Plaza.EdgeInfo.mk 1 1 1,
          Plaza.EdgeInfo.mk 2 2 0], e'.len < e.len
            ∨ (e'.len = e.len ∧ e'.oppGlobal ≤ e.oppGlobal))
    ∧ ∀ edges' : List Plaza.EdgeInfo,
        List.Perm [Plaza.EdgeInfo.mk 0 1 2, Plaza.EdgeInfo.mk 1 1 1,
          Plaza.EdgeInfo.mk 2 2 0] edges' →
        Plaza.face_long_edge_scan edges'
          = Plaza.face_long_edge_scan [Plaza.EdgeInfo.mk 0 1 2,
              Plaza.EdgeInfo.mk 1 1 1, Plaza.EdgeInfo.mk 2 2 0] :=
  face_long_edge_deterministic
    [Plaza.EdgeInfo.mk 0 1 2, Plaza.EdgeInfo.mk 1 1 1, Plaza.EdgeInfo.mk 2 2 0]
    (by decide)
    (by
      intro e he
      rcases List.mem_cons.1 he with rfl | he
      · norm_num
      rcases List.mem_cons.1 he with rfl | he
      · norm_num
      rcases List.mem_cons.1 he with rfl | he
      · norm_num
      · exact absurd he (List.not_mem_nil e))
    (by decide)

/-!  ### C3, C8: parent-facet tagging -/

namespace Plaza

/-- The match loop either leaves the tag unchanged or returns the
entity of a matching facet set. -/
theorem matchLoop_cases (cverts : List Nat) :
    ∀ (fsets : List (Finset Nat × Nat)) (cur : Nat),
      matchLoop fsets cverts cur = cur
      ∨ ∃ fs ∈ fsets, matchLoop fsets cverts cur = fs.2
          ∧ ∀ w ∈ cverts, w ∈ fs.1 := by
  intro fsets
  induction fsets with
  | nil => intro cur; exact Or.inl rfl
  | cons fs rest ih =>
      intro cur
      have hstep : matchLoop (fs :: rest) cverts cur
          = matchLoop rest cverts
              (if cverts.all (fun v => decide (v ∈ fs.1)) then fs.2
               else cur) := rfl
      rw [hstep]
      by_cases hc : cverts.all (fun v => decide (v ∈ fs.1)) = true
      · rw [if_pos hc]
        have hallc : ∀ w ∈ cverts, w ∈ fs.1 := by
          intro w hw
          simpa using (List.all_eq_true.1 hc) w hw
        rcases ih fs.2 with h | ⟨fs', hfs', hv, hall⟩
        · exact Or.inr ⟨fs, List.mem_cons_self fs rest, h, hallc⟩
        · exact Or.inr ⟨fs', List.mem_cons_of_mem _ hfs', hv, hall⟩
      · rw [if_neg hc]
        rcases ih cur with h | ⟨fs', hfs', hv, hall⟩
        · exact Or.inl h
        · exact Or.inr ⟨fs', List.mem_cons_of_mem _ hfs', hv, hall⟩

/-- If no facet set matches, the match loop keeps the current tag. -/
theorem matchLoop_no_match (cverts : List Nat) :
    ∀ (fsets : List (Finset Nat × Nat)) (cur : Nat),
      (∀ fs ∈ fsets, ¬ ∀ w ∈ cverts, w ∈ fs.1) →
      matchLoop fsets cverts cur = cur := by
  intro fsets
  induction fsets with
  | nil => intro cur _; rfl
  | cons fs rest ih =>
      intro cur hno
      have hstep : matchLoop (fs :: rest) cverts cur
          = matchLoop rest cverts
              (if cverts.all (fun v => decide (v ∈ fs.1)) then fs.2
               else cur) := rfl
      rw [hstep]
      have hc : ¬ cverts.all (fun v => decide (v ∈ fs.1)) = true := by
        intro hc
        exact hno fs (List.mem_cons_self fs rest)
          (fun w hw => by simpa using (List.all_eq_true.1 hc) w hw)
      rw [if_neg hc]
      exact ih cur (fun fs' h => hno fs' (List.mem_cons_of_mem _ h))

/-- When at least one facet set matches, the match loop returns the
entity of the LAST matching set in iteration order. -/
theorem matchLoop_last (cverts : List Nat) :
    ∀ (fsets : List (Finset Nat × Nat)) (cur : Nat),
      (∃ fs ∈ fsets, ∀ w ∈ cverts, w ∈ fs.1) →
      ∃ l1 fs l2, fsets = l1 ++ fs :: l2
        ∧ (∀ w ∈ cverts, w ∈ fs.1)
        ∧ (∀ fs' ∈ l2, ¬ ∀ w ∈ cverts, w ∈ fs'.1)
        ∧ matchLoop fsets cverts cur = fs.2 := by
  intro fsets
  induction fsets with
  | nil =>
      intro cur h
      obtain ⟨fs, hfs, _⟩ := h
      exact absurd hfs (List.not_mem_nil fs)
  | cons fs rest ih =>
      intro cur hex
      have hstep : matchLoop (fs :: rest) cverts cur
          = matchLoop rest cverts
              (if cverts.all (fun v => decide (v ∈ fs.1)) then fs.2
               else cur) := rfl
      by_cases hrest : ∃ fs' ∈ rest, ∀ w ∈ cverts, w ∈ fs'.1
      · obtain ⟨l1, fsm, l2, hdecomp, hm, hnone, hres⟩ :=
          ih (if cverts.all (fun v => decide (v ∈ fs.1)) then fs.2 else cur)
            hrest
        refine ⟨fs :: l1, fsm, l2, by rw [hdecomp]; rfl, hm, hnone, ?_⟩
        rw [hstep]
        exact hres
      · obtain ⟨fs0, hfs0, hall0⟩ := hex
        rcases List.mem_cons.1 hfs0 with rfl | hmem
        · have hc : cverts.all (fun v => decide (v ∈ fs0.1)) = true := by
            rw [List.all_eq_true]
            intro w hw
            simpa using hall0 w hw
          refine ⟨[], fs0, rest, rfl, hall0, ?_, ?_⟩
          · intro fs' hfs' hall'
            exact hrest ⟨fs', hfs', hall'⟩
          · rw [hstep, if_pos hc]
            exact matchLoop_no_match cverts rest fs0.2
              (fun fs' h hall' => hrest ⟨fs', h, hall'⟩)
        · exact absurd ⟨fs0, hmem, hall0⟩ hrest

/-- Entry-wise behaviour of processing one child facet: every entry is
unchanged, or it is the facet's own entry and holds the entity of a
matching facet set. -/
theorem tagChildFacet_spec (fsets : List (Finset Nat × Nat))
    (tags : List Nat) (f : CFacetM) :
    (tagChildFacet fsets tags f).length = tags.length
    ∧ ∀ i, (tagChildFacet fsets tags f).getD i noParent
          = tags.getD i noParent
        ∨ (f.index = i ∧ ∃ fs ∈ fsets,
            (tagChildFacet fsets tags f).getD i noParent = fs.2
            ∧ ∀ w ∈ f.verts, w ∈ fs.1) := by
  rw [tagChildFacet]
  split_ifs with hguard
  · refine ⟨by simp, fun i => ?_⟩
    by_cases hidx : f.index = i
    · subst hidx
      by_cases hlen : f.index < tags.length
      · have hset : (tags.set f.index
            (matchLoop fsets f.verts (tags.getD f.index noParent))).getD
              f.index noParent
            = matchLoop fsets f.verts (tags.getD f.index noParent) := by
          simp [List.getD, List.getElem?_set_self, hlen]
        rcases matchLoop_cases f.verts fsets (tags.getD f.index noParent)
          with h | ⟨fs, hfs, hv, hall⟩
        · exact Or.inl (by rw [hset, h])
        · exact Or.inr ⟨rfl, fs, hfs, by rw [hset, hv], hall⟩
      · rw [List.set_eq_of_length_le (le_of_not_lt hlen)]
        exact Or.inl rfl
    · exact Or.inl (by simp [List.getD, List.getElem?_set_ne hidx])
  · exact ⟨rfl, fun i => Or.inl rfl⟩

/-- Generic composition of entry-wise tag updates along a fold. -/
theorem foldl_tag_spec {α : Type} (g : List Nat → α → List Nat)
    (P : α → Nat → Nat → Prop)
    (hg_len : ∀ tags x, (g tags x).length = tags.length)
    (hg : ∀ tags x i, (g tags x).getD i noParent = tags.getD i noParent
        ∨ P x i ((g tags x).getD i noParent)) :
    ∀ (l : List α) (tags : List Nat),
      (l.foldl g tags).length = tags.length
      ∧ ∀ i, (l.foldl g tags).getD i noParent = tags.getD i noParent
          ∨ ∃ x ∈ l, P x i ((l.foldl g tags).getD i noParent) := by
  intro l
  induction l with
  | nil => intro tags; exact ⟨rfl, fun i => Or.inl rfl⟩
  | cons x rest ih =>
      intro tags
      simp only [List.foldl_cons]
      obtain ⟨ihl, ihs⟩ := ih (g tags x)
      refine ⟨ihl.trans (hg_len tags x), fun i => ?_⟩
      rcases ihs i with h | ⟨y, hy, hP⟩
      · rw [h]
        rcases hg tags x i with h2 | h2
        · exact Or.inl h2
        · exact Or.inr ⟨x, List.mem_cons_self x rest, h2⟩
      · exact Or.inr ⟨y, List.mem_cons_of_mem _ hy, hP⟩

/-- Entry-wise behaviour of processing one parent cell. -/
theorem processParent_spec (tdim : Nat) (nvm : Nat → Option Nat)
    (newcells : List CCellM) (tags : List Nat) (p : PCellM) :
    (processParent tdim nvm newcells tags p).length = tags.length
    ∧ ∀ i, (processParent tdim nvm newcells tags p).getD i noParent
          = tags.getD i noParent
        ∨ ∃ c ∈ newcells, c.parent = p.index
            ∧ ∃ cf ∈ c.facets, cf.index = i
            ∧ ∃ f ∈ p.facets,
              (processParent tdim nvm newcells tags p).getD i noParent
                = f.entity
              ∧ ∀ w ∈ cf.verts, w ∈ facetVSet tdim nvm f := by
  rw [processParent]
  have hcell := foldl_tag_spec
    (fun tags c => c.facets.foldl
      (tagChildFacet (p.facets.map (fun f => (facetVSet tdim nvm f, f.entity))))
      tags)
    (fun c i v => ∃ cf ∈ c.facets, cf.index = i
      ∧ ∃ f ∈ p.facets, v = f.entity ∧ ∀ w ∈ cf.verts, w ∈ facetVSet tdim nvm f)
    (fun tags c =>
      (foldl_tag_spec
        (tagChildFacet (p.facets.map (fun f => (facetVSet tdim nvm f, f.entity))))
        (fun cf i v => cf.index = i ∧ ∃ f ∈ p.facets, v = f.entity
          ∧ ∀ w ∈ cf.verts, w ∈ facetVSet tdim nvm f)
        (fun tags cf => (tagChildFacet_spec _ tags cf).1)
        (fun tags cf i => by
          rcases (tagChildFacet_spec
            (p.facets.map (fun f => (facetVSet tdim nvm f, f.entity)))
            tags cf).2 i with h | ⟨hidx, fs, hfs, hval, hall⟩
          · exact Or.inl h
          · obtain ⟨f, hf, rfl⟩ := List.mem_map.1 hfs
            exact Or.inr ⟨hidx, f, hf, hval, hall⟩)
        c.facets tags).1)
    (fun tags c i => by
      rcases (foldl_tag_spec
        (tagChildFacet (p.facets.map (fun f => (facetVSet tdim nvm f, f.entity))))
        (fun cf i v => cf.index = i ∧ ∃ f ∈ p.facets, v = f.entity
          ∧ ∀ w ∈ cf.verts, w ∈ facetVSet tdim nvm f)
        (fun tags cf => (tagChildFacet_spec _ tags cf).1)
        (fun tags cf i => by
          rcases (tagChildFacet_spec
            (p.facets.map (fun f => (facetVSet tdim nvm f, f.entity)))
            tags cf).2 i with h | ⟨hidx, fs, hfs, hval, hall⟩
          · exact Or.inl h
          · obtain ⟨f, hf, rfl⟩ := List.mem_map.1 hfs
            exact Or.inr ⟨hidx, f, hf, hval, hall⟩)
        c.facets tags).2 i with h | ⟨cf, hcf, hidx, f, hf, hval, hall⟩
      · exact Or.inl h
      · exact Or.inr ⟨cf, hcf, hidx, f, hf, hval, hall⟩)
    (newcells.filter (fun c => c.parent == p.index))
    tags
  obtain ⟨hl, hs⟩ := hcell
  refine ⟨hl, fun i => ?_⟩
  rcases hs i with h | ⟨c, hc, cf, hcf, hidx, f, hf, hval, hall⟩
  · exact Or.inl h
  · have hcmem := List.mem_filter.1 hc
    exact Or.inr ⟨c, hcmem.1, by simpa using hcmem.2, cf, hcf, hidx,
      f, hf, hval, hall⟩

end Plaza

/-- C8: after `set_parent_facet_markers`, the `parent_facet` array has
one entry per facet of the new mesh (so each child facet is tagged with
at most one parent), and every entry is either the sentinel
(`std::numeric_limits<std::size_t>::max()`) or the entity index of a
facet of a parent cell of one of the child cells owning that facet,
whose augmented vertex set contains the child facet's vertices;
consequently a facet whose vertex set is contained in no parent facet's
augmented vertex set always carries the sentinel. -/
theorem set_parent_facet_markers_invariant (tdim : Nat)
    (nvm : Nat → Option Nat) (pcells : List Plaza.PCellM)
    (newcells : List Plaza.CCellM) (num_facets : Nat) :
    (Plaza.set_parent_facet_markers tdim nvm pcells newcells
        num_facets).length = num_facets
    ∧ ∀ i : Nat,
        ((Plaza.set_parent_facet_markers tdim nvm pcells newcells
              num_facets).getD i Plaza.noParent = Plaza.noParent
          ∨ Plaza.tagProv tdim nvm pcells newcells i
              ((Plaza.set_parent_facet_markers tdim nvm pcells newcells
                  num_facets).getD i Plaza.noParent))
        ∧ ((∀ p ∈ pcells, ∀ c ∈ newcells, c.parent = p.index →
              ∀ cf ∈ c.facets, cf.index = i →
              ∀ f ∈ p.facets,
                ¬ ∀ w ∈ cf.verts, w ∈ Plaza.facetVSet tdim nvm f) →
            (Plaza.set_parent_facet_markers tdim nvm pcells newcells
                num_facets).getD i Plaza.noParent = Plaza.noParent) := by
  have hmain := Plaza.foldl_tag_spec
    (Plaza.processParent tdim nvm newcells)
    (fun p i v => ∃ c ∈ newcells, c.parent = p.index
      ∧ ∃ cf ∈ c.facets, cf.index = i
      ∧ ∃ f ∈ p.facets, v = f.entity
        ∧ ∀ w ∈ cf.verts, w ∈ Plaza.facetVSet tdim nvm f)
    (fun tags p => (Plaza.processParent_spec tdim nvm newcells tags p).1)
    (fun tags p i => by
      rcases (Plaza.processParent_spec tdim nvm newcells tags p).2 i
        with h | ⟨c, hc, hpar, cf, hcf, hidx, f, hf, hval, hall⟩
      · exact Or.inl h
      · exact Or.inr ⟨c, hc, hpar, cf, hcf, hidx, f, hf, hval, hall⟩)
    pcells (List.replicate num_facets Plaza.noParent)
  obtain ⟨hl, hs⟩ := hmain
  have hinitlen : (List.replicate num_facets Plaza.noParent).length
      = num_facets := by simp
  have hinit : ∀ i, (List.replicate num_facets Plaza.noParent).getD i
      Plaza.noParent = Plaza.noParent := by
    intro i
    by_cases h : i < num_facets
    · simp [List.getD, List.getElem?_replicate, h]
    · simp [List.getD, List.getElem?_eq_none, le_of_not_lt h]
  rw [Plaza.set_parent_facet_markers]
  refine ⟨hl.trans hinitlen, fun i => ?_⟩
  have hdisj :
      (pcells.foldl (Plaza.processParent tdim nvm newcells)
          (List.replicate num_facets Plaza.noParent)).getD i Plaza.noParent
        = Plaza.noParent
      ∨ Plaza.tagProv tdim nvm pcells newcells i
          ((pcells.foldl (Plaza.processParent tdim nvm newcells)
              (List.replicate num_facets Plaza.noParent)).getD i
                Plaza.noParent) := by
    rcases hs i with h | ⟨p, hp, c, hc, hpar, cf, hcf, hidx, f, hf, hval, hall⟩
    · exact Or.inl (h.trans (hinit i))
    · exact Or.inr ⟨p, hp, c, hc, hpar, cf, hcf, hidx, f, hf, hval, hall⟩
  refine ⟨hdisj, fun hno => ?_⟩
  rcases hdisj with h | ⟨p, hp, c, hc, hpar, cf, hcf, hidx, f, hf, _, hall⟩
  · exact h
  · exact absurd hall (hno p hp c hc hpar cf hcf hidx f hf)

/-- Witness for C8: a single parent cell with one facet (entity 7,
vertices 1 and 2) and one child cell with one facet (index 0, the same
vertices) in a one-facet new mesh. -/
theorem set_parent_facet_markers_invariant_witness :
    ((Plaza.set_parent_facet_markers 2 (fun _ => none)
        [Plaza.PCellM.mk 0 [Plaza.PFacetM.mk 0 7 [1, 2] []]]
        [Plaza.CCellM.mk 0 0 [Plaza.CFacetM.mk 0 [1, 2]]] 1).getD 0
          Plaza.noParent = Plaza.noParent
      ∨ Plaza.tagProv 2 (fun _ => none)
          [Plaza.PCellM.mk 0 [Plaza.PFacetM.mk 0 7 [1, 2] []]]
          [Plaza.CCellM.mk 0 0 [Plaza.CFacetM.mk 0 [1, 2]]] 0
          ((Plaza.set_parent_facet_markers 2 (fun _ => none)
              [Plaza.PCellM.mk 0 [Plaza.PFacetM.mk 0 7 [1, 2] []]]
              [Plaza.CCellM.mk 0 0 [Plaza.CFacetM.mk 0 [1, 2]]] 1).getD 0
                Plaza.noParent)) :=
  ((set_parent_facet_markers_invariant 2 (fun _ => none)
      [Plaza.PCellM.mk 0 [Plaza.PFacetM.mk 0 7 [1, 2] []]]
      [Plaza.CCellM.mk 0 0 [Plaza.CFacetM.mk 0 [1, 2]]] 1).2 0).1

/-- C3 counterexample: a parent cell whose two facet sets {0,1,2}
(entity 10) and {0,1,3} (entity 11) both contain the child facet's
vertex set {0,1}.  The claim as stated predicts the FIRST match
(entity 10); the code keeps the LAST match (entity 11), because the
assignment loop has no `break`. -/
theorem set_parent_facet_markers_first_match_false :
    (Plaza.set_parent_facet_markers 3 (fun _ => none)
        [Plaza.PCellM.mk 0 [Plaza.PFacetM.mk 0 10 [0, 1, 2] [],
          Plaza.PFacetM.mk 1 11 [0, 1, 3] []]]
        [Plaza.CCellM.mk 0 0 [Plaza.CFacetM.mk 0 [0, 1]]] 1).getD 0
          Plaza.noParent = 11
    ∧ Plaza.matchFirst
        [(Plaza.facetVSet 3 (fun _ => none) (Plaza.PFacetM.mk 0 10 [0, 1, 2] []), 10),
         (Plaza.facetVSet 3 (fun _ => none) (Plaza.PFacetM.mk 1 11 [0, 1, 3] []), 11)]
        [0, 1] Plaza.noParent = 10
    ∧ (11 : Nat) ≠ 10 := by
  refine ⟨?_, ?_, by decide⟩ <;> rfl

/-- C3 amended: for every child-cell facet that is not yet tagged and
whose vertex set is a subset of at least one parent facet set, the tag
written is the entity of the LAST matching set in the parent's facet
iteration order (the source loop overwrites on every match). -/
theorem tag_child_facet_last_match (fsets : List (Finset Nat × Nat))
    (cverts : List Nat) (cur : Nat)
    (hmatch : ∃ fs ∈ fsets, ∀ w ∈ cverts, w ∈ fs.1) :
    ∃ l1 fs l2, fsets = l1 ++ fs :: l2
      ∧ (∀ w ∈ cverts, w ∈ fs.1)
      ∧ (∀ fs' ∈ l2, ¬ ∀ w ∈ cverts, w ∈ fs'.1)
      ∧ Plaza.matchLoop fsets cverts cur = fs.2 :=
  Plaza.matchLoop_last cverts fsets cur hmatch

/-- Witness for the amended C3 at the counterexample's input: the tag
written is 11, the last matching entity. -/
theorem tag_child_facet_last_match_witness :
    ∃ l1 fs l2,
      [((⟨{0, 1, 2}, 10⟩ : Finset Nat × Nat)), ⟨{0, 1, 3}, 11⟩]
        = l1 ++ fs :: l2
      ∧ (∀ w ∈ [0, 1], w ∈ fs.1)
      ∧ (∀ fs' ∈ l2, ¬ ∀ w ∈ [0, 1], w ∈ fs'.1)
      ∧ Plaza.matchLoop [⟨{0, 1, 2}, 10⟩, ⟨{0, 1, 3}, 11⟩] [0, 1]
          Plaza.noParent = fs.2 :=
  tag_child_facet_last_match [⟨{0, 1, 2}, 10⟩, ⟨{0, 1, 3}, 11⟩] [0, 1]
    Plaza.noParent (by decide)

/-!  ### C9: value-collection routing -/

namespace Plaza

/-- The global-to-local lookup finds exactly the locally present global
indices. -/
theorem mapOfGlobalIndices_isSome (l : List Nat) (g : Nat) :
    (mapOfGlobalIndices l g).isSome ↔ g ∈ l := by
  have aux : ∀ (l' : List Nat) (k : Nat) (m : Nat → Option Nat),
      (((List.enumFrom k l').foldl
          (fun m p => fun x => if x = p.2 then some p.1 else m x) m) g).isSome
        ↔ g ∈ l' ∨ (m g).isSome := by
    intro l'
    induction l' with
    | nil => intro k m; simp
    | cons a rest ih =>
        intro k m
        simp only [List.enumFrom_cons, List.foldl_cons]
        rw [ih (k + 1)]
        by_cases hg : g = a
        · subst hg
          simp
        · simp [hg]
  have : mapOfGlobalIndices l g
      = ((List.enumFrom 0 l).foldl
          (fun m p => fun x => if x = p.2 then some p.1 else m x)
          (fun _ => none)) g := rfl
  rw [this, aux]
  simp

/-- The first `ldata` loop applies exactly the locally found tuples, in
input order and through the lookup, and queues exactly the global
indices of the tuples not found, in input order. -/
theorem localApplyLoop_eq {T : Type} (lookup : Nat → Option Nat)
    (ldata : List ((Nat × Nat) × T)) :
    localApplyLoop lookup ldata
      = (ldata.filterMap (fun d =>
            match lookup d.1.1 with
            | some li => some (li, d.1.2, d.2)
            | none => none),
         ldata.filterMap (fun d =>
            match lookup d.1.1 with
            | some _ => none
            | none => some d.1.1)) := by
  have aux : ∀ (l : List ((Nat × Nat) × T))
      (st : List (Nat × Nat × T) × List Nat),
      l.foldl (fun st d =>
        match lookup d.1.1 with
        | some li => (st.1 ++ [(li, d.1.2, d.2)], st.2)
        | none => (st.1, st.2 ++ [d.1.1])) st
      = (st.1 ++ l.filterMap (fun d =>
            match lookup d.1.1 with
            | some li => some (li, d.1.2, d.2)
            | none => none),
         st.2 ++ l.filterMap (fun d =>
            match lookup d.1.1 with
            | some _ => none
            | none => some d.1.1)) := by
    intro l
    induction l with
    | nil => intro st; simp
    | cons d rest ih =>
        intro st
        simp only [List.foldl_cons, List.filterMap_cons]
        rcases hl : lookup d.1.1 with _ | li
        · rw [ih]
          simp
        · rw [ih]
          simp
  rw [localApplyLoop, aux]
  simp

end Plaza

namespace Plaza

/-- Innermost packing loop (over the destination pairs of one located
entity, for one `ldata` tuple `d`): per destination, the index buffer
grows by the flattened index pairs and the value buffer by the values
of exactly the triples this loop contributes, in the same order. -/
theorem packPds_spec {T : Type} (d : (Nat × Nat) × T) :
    ∀ (pds : List (Nat × Nat)) (st : (Nat → List Nat) × (Nat → List T))
      (q : Nat),
      ((pds.foldl (fun (st : (Nat → List Nat) × (Nat → List T)) pd =>
          (fun r => if r = pd.1 then st.1 r ++ [pd.2, d.1.2] else st.1 r,
           fun r => if r = pd.1 then st.2 r ++ [d.2] else st.2 r)) st).1 q
        = st.1 q ++ ((pds.filter (fun pd => pd.1 == q)).map
            (fun pd => ((pd.2, d.1.2, d.2) : Nat × Nat × T))).flatMap
              (fun t => [t.1, t.2.1]))
      ∧ ((pds.foldl (fun (st : (Nat → List Nat) × (Nat → List T)) pd =>
          (fun r => if r = pd.1 then st.1 r ++ [pd.2, d.1.2] else st.1 r,
           fun r => if r = pd.1 then st.2 r ++ [d.2] else st.2 r)) st).2 q
        = st.2 q ++ ((pds.filter (fun pd => pd.1 == q)).map
            (fun pd => ((pd.2, d.1.2, d.2) : Nat × Nat × T))).map
              (fun t => t.2.2)) := by
  intro pds
  induction pds with
  | nil => intro st q; simp
  | cons pd rest ih =>
      intro st q
      simp only [List.foldl_cons, List.filter_cons]
      obtain ⟨ih1, ih2⟩ := ih
        (fun r => if r = pd.1 then st.1 r ++ [pd.2, d.1.2] else st.1 r,
         fun r => if r = pd.1 then st.2 r ++ [d.2] else st.2 r) q
      by_cases hq : pd.1 = q
      · have hbeq : (pd.1 == q) = true := beq_iff_eq.2 hq
        rw [hbeq]
        refine ⟨?_, ?_⟩
        · rw [ih1]
          simp [hq.symm, List.append_assoc]
        · rw [ih2]
          simp [hq.symm, List.append_assoc]
      · have hbeq : (pd.1 == q) = false := beq_eq_false_iff_ne.2 hq
        have hq' : ¬ q = pd.1 := fun h => hq h.symm
        rw [hbeq]
        refine ⟨?_, ?_⟩
        · rw [ih1]
          simp [hq']
        · rw [ih2]
          simp [hq']

/-- Middle packing loop (over the `ldata` positions of one located
entity). -/
theorem packPos_spec {T : Type} (ldata : List ((Nat × Nat) × T))
    (pds : List (Nat × Nat)) :
    ∀ (is : List Nat) (st : (Nat → List Nat) × (Nat → List T)) (q : Nat),
      ((is.foldl (fun st i =>
          match ldata.get? i with
          | some d =>
              pds.foldl (fun st pd =>
                (fun r => if r = pd.1 then st.1 r ++ [pd.2, d.1.2]
                  else st.1 r,
                 fun r => if r = pd.1 then st.2 r ++ [d.2] else st.2 r)) st
          | none => st) st).1 q
        = st.1 q ++ (is.flatMap (fun i =>
            match ldata.get? i with
            | some d => (pds.filter (fun pd => pd.1 == q)).map
                (fun pd => ((pd.2, d.1.2, d.2) : Nat × Nat × T))
            | none => [])).flatMap (fun t => [t.1, t.2.1]))
      ∧ ((is.foldl (fun st i =>
          match ldata.get? i with
          | some d =>
              pds.foldl (fun st pd =>
                (fun r => if r = pd.1 then st.1 r ++ [pd.2, d.1.2]
                  else st.1 r,
                 fun r => if r = pd.1 then st.2 r ++ [d.2] else st.2 r)) st
          | none => st) st).2 q
        = st.2 q ++ (is.flatMap (fun i =>
            match ldata.get? i with
            | some d => (pds.filter (fun pd => pd.1 == q)).map
                (fun pd => ((pd.2, d.1.2, d.2) : Nat × Nat × T))
            | none => [])).map (fun t => t.2.2)) := by
  intro is
  induction is with
  | nil => intro st q; simp
  | cons i rest ih =>
      intro st q
      simp only [List.foldl_cons, List.flatMap_cons]
      rcases hi : ldata.get? i with _ | d
      · obtain ⟨ih1, ih2⟩ := ih st q
        exact ⟨by rw [ih1]; simp, by rw [ih2]; simp⟩
      · obtain ⟨p1, p2⟩ := packPds_spec d pds st q
        obtain ⟨ih1, ih2⟩ := ih
          (pds.foldl (fun st pd =>
            (fun r => if r = pd.1 then st.1 r ++ [pd.2, d.1.2] else st.1 r,
             fun r => if r = pd.1 then st.2 r ++ [d.2] else st.2 r)) st) q
        refine ⟨?_, ?_⟩
        · rw [ih1, p1]
          simp [List.flatMap_append, List.append_assoc]
        · rw [ih2, p2]
          simp [List.map_append, List.append_assoc]

/-- C9 packing lockstep, per destination process: the index buffer is
exactly the flattened `(local cell index, local entity index)` pairs of
the destination's triples in push order, and the value buffer is
exactly their values in the same order — the pairing is never reordered
independently. -/
theorem packSend_lockstep {T : Type} (ldata : List ((Nat × Nat) × T))
    (entity_hosts : List (Nat × List (Nat × Nat))) (q : Nat) :
    (packSend ldata entity_hosts).1 q
      = (sendTriples ldata entity_hosts q).flatMap (fun t => [t.1, t.2.1])
    ∧ (packSend ldata entity_hosts).2 q
      = (sendTriples ldata entity_hosts q).map (fun t => t.2.2) := by
  have aux : ∀ (ehs : List (Nat × List (Nat × Nat)))
      (st : (Nat → List Nat) × (Nat → List T)),
      ((ehs.foldl (fun st eh =>
          (ldataPositions ldata eh.1).foldl (fun st i =>
            match ldata.get? i with
            | some d =>
                eh.2.foldl (fun st pd =>
                  (fun r => if r = pd.1 then st.1 r ++ [pd.2, d.1.2]
                    else st.1 r,
                   fun r => if r = pd.1 then st.2 r ++ [d.2]
                    else st.2 r)) st
            | none => st) st) st).1 q
        = st.1 q ++ (ehs.flatMap (fun eh =>
            (ldataPositions ldata eh.1).flatMap (fun i =>
              match ldata.get? i with
              | some d => (eh.2.filter (fun pd => pd.1 == q)).map
                  (fun pd => ((pd.2, d.1.2, d.2) : Nat × Nat × T))
              | none => []))).flatMap (fun t => [t.1, t.2.1]))
      ∧ ((ehs.foldl (fun st eh =>
          (ldataPositions ldata eh.1).foldl (fun st i =>
            match ldata.get? i with
            | some d =>
                eh.2.foldl (fun st pd =>
                  (fun r => if r = pd.1 then st.1 r ++ [pd.2, d.1.2]
                    else st.1 r,
                   fun r => if r = pd.1 then st.2 r ++ [d.2]
                    else st.2 r)) st
            | none => st) st) st).2 q
        = st.2 q ++ (ehs.flatMap (fun eh =>
            (ldataPositions ldata eh.1).flatMap (fun i =>
              match ldata.get? i with
              | some d => (eh.2.filter (fun pd => pd.1 == q)).map
                  (fun pd => ((pd.2, d.1.2, d.2) : Nat × Nat × T))
              | none => []))).map (fun t => t.2.2)) := by
    intro ehs
    induction ehs with
    | nil => intro st; simp
    | cons eh rest ih =>
        intro st
        simp only [List.foldl_cons, List.flatMap_cons]
        obtain ⟨p1, p2⟩ := packPos_spec ldata eh.2 (ldataPositions ldata eh.1)
          st q
        obtain ⟨ih1, ih2⟩ := ih
          ((ldataPositions ldata eh.1).foldl (fun st i =>
            match ldata.get? i with
            | some d =>
                eh.2.foldl (fun st pd =>
                  (fun r => if r = pd.1 then st.1 r ++ [pd.2, d.1.2]
                    else st.1 r,
                   fun r => if r = pd.1 then st.2 r ++ [d.2]
                    else st.2 r)) st
            | none => st) st)
        refine ⟨?_, ?_⟩
        · rw [ih1, p1]
          simp [List.flatMap_append, List.append_assoc]
        · rw [ih2, p2]
          simp [List.map_append, List.append_assoc]
  obtain ⟨h1, h2⟩ := aux entity_hosts (fun _ => [], fun _ => [])
  exact ⟨by rw [packSend, h1]; rfl, by rw [packSend, h2]; rfl⟩

end Plaza

namespace Plaza

/-- Receive-side pairing: when the index buffer is the flattened index
pairs of a triple list and the value buffer is its values, the receive
loop applies exactly those triples, the `i`-th value with the index
pair at positions `2i` and `2i+1`. -/
theorem applyRecvOne_pairing {T : Type} (ts : List (Nat × Nat × T)) :
    applyRecvOne (ts.flatMap (fun t => [t.1, t.2.1]))
      (ts.map (fun t => t.2.2)) = ts := by
  have aux : ∀ (ts' : List (Nat × Nat × T)) (recv0 pre : List Nat)
      (acc : List (Nat × Nat × T)) (k : Nat),
      recv0 = pre ++ ts'.flatMap (fun t => [t.1, t.2.1]) →
      pre.length = 2 * k →
      (ts'.map (fun t => t.2.2)).foldl (fun st v =>
        (st.1 ++ [(recv0.getD (2 * st.2) 0, recv0.getD (2 * st.2 + 1) 0, v)],
         st.2 + 1)) (acc, k)
      = (acc ++ ts', k + ts'.length) := by
    intro ts'
    induction ts' with
    | nil => intro recv0 pre acc k _ _; simp
    | cons t rest ih =>
        intro recv0 pre acc k hrecv hlen
        rcases t with ⟨a, b, c⟩
        simp only [List.map_cons, List.foldl_cons]
        have e0 : recv0.getD (2 * k) 0 = a := by
          rw [List.getD_eq_getElem?_getD, hrecv,
            List.getElem?_append_right (by omega)]
          simp [hlen]
        have e1 : recv0.getD (2 * k + 1) 0 = b := by
          rw [List.getD_eq_getElem?_getD, hrecv,
            List.getElem?_append_right (by omega)]
          have : 2 * k + 1 - pre.length = 1 := by omega
          rw [this]
          simp
        rw [e0, e1]
        rw [ih recv0 (pre ++ [a, b]) (acc ++ [(a, b, c)]) (k + 1)
          (by rw [hrecv]; simp) (by simp [hlen]; omega)]
        simp [List.append_assoc]
        omega
  have := aux ts (ts.flatMap (fun t => [t.1, t.2.1])) [] [] 0 (by simp) (by simp)
  rw [applyRecvOne, this]
  simp

end Plaza

/-- C9: routing in `build_mesh_value_collection` — (1) the
global-to-local map finds exactly the global cell indices present among
the target mesh's local global entity indices; (2) the first loop
applies exactly the locally found tuples through that lookup, in input
order, and queues the global indices of the remaining tuples; (3) for
every destination process the packed index buffer is the flattened
`(destination-local cell index, local entity index)` pairs of the
destination's triples in push order and the packed value buffer is
their values in the same order (index/value pairing is never reordered
independently); and (4) the receive loop applies the `i`-th value of
each source's buffer with exactly the index pair at entries `2i` and
`2i+1` of the index buffer, recovering the triples in order. -/
theorem build_mesh_value_collection_routing {T : Type}
    (global_entity_indices : List Nat)
    (ldata : List ((Nat × Nat) × T))
    (entity_hosts : List (Nat × List (Nat × Nat))) :
    (∀ g, (Plaza.mapOfGlobalIndices global_entity_indices g).isSome
        ↔ g ∈ global_entity_indices)
    ∧ Plaza.localApplyLoop (Plaza.mapOfGlobalIndices global_entity_indices)
        ldata
      = (ldata.filterMap (fun d =>
            match Plaza.mapOfGlobalIndices global_entity_indices d.1.1 with
            | some li => some (li, d.1.2, d.2)
            | none => none),
         ldata.filterMap (fun d =>
            match Plaza.mapOfGlobalIndices global_entity_indices d.1.1 with
            | some _ => none
            | none => some d.1.1))
    ∧ (∀ q, (Plaza.packSend ldata entity_hosts).1 q
          = (Plaza.sendTriples ldata entity_hosts q).flatMap
              (fun t => [t.1, t.2.1])
        ∧ (Plaza.packSend ldata entity_hosts).2 q
          = (Plaza.sendTriples ldata entity_hosts q).map (fun t => t.2.2))
    ∧ (∀ ts : List (Nat × Nat × T),
        Plaza.applyRecvOne (ts.flatMap (fun t => [t.1, t.2.1]))
          (ts.map (fun t => t.2.2)) = ts) :=
  ⟨fun g => Plaza.mapOfGlobalIndices_isSome global_entity_indices g,
   Plaza.localApplyLoop_eq _ ldata,
   fun q => Plaza.packSend_lockstep ldata entity_hosts q,
   fun ts => Plaza.applyRecvOne_pairing ts⟩
